import Mathlib

/-!
# Verification of the magentic streaming response grouping engine

Shallow embedding of `src/magentic/chat_model/stream.py`.

The Python module converts a flat stream of provider events into a lazy
sequence of output segments (free-text runs and parsed tool calls), using
nested generators (`OutputStream.__stream__`, `_streamed_str`, `_tool_call`)
that share one-slot lookahead cells, and an async mirror (`AsyncOutputStream`).

Embedding conventions:
* A finite source stream is a `List ι` of raw events; the abstract provider
  parser (`StreamParser`, lines 36-47) is a structure of four total functions.
* The mutable `StreamState` collaborator is modelled by its update trace:
  the list of events passed to `state.update`, in call order.  The message
  snapshot attached to errors is that trace at the moment of the raise
  (the snapshot "reflects all events applied so far").
* Python truthiness of `str | None` values (`if content := ...`,
  `if item.id and ...`, `if item.args:`) is modelled by `truthyStr`:
  an `Option String` is truthy iff it is `some s` with `s ≠ ""`.
* Generators become structurally recursive functions returning the values
  they would yield together with the final lookahead cell contents and the
  unconsumed remainder of their input; generator suspension (for the
  early-abandonment claims) is modelled by explicit step/resume functions.
* Exceptions (`UnknownToolError`, `ToolSchemaParseError`, Python `assert`
  failures, the `StopIteration`-in-generator runtime error) become an
  `Option` error component of the run result.  Loop fuel is threaded so all
  definitions are structural (kernel-computable); running out of fuel is its
  own error marker and only occurs on inputs where the Python code loops
  forever re-yielding the same text segment (an event classified as both
  content and tool call being its own boundary).
* `select_function_schema` and `FunctionSchema.parse_args` live in
  `magentic/chat_model/function_schema.py`, which is not part of the given
  source; they are modelled from the spec (first-match lookup by name; a
  parse that consumes the call's argument fragments and either returns a
  typed value or signals a validation error).
-/

/-- Model of `FunctionCallChunk` (stream.py lines 30-33): one normalized
tool-call fragment with optional id, name and args chunk. -/
structure FunctionCallChunk where
  id : Option String
  name : Option String
  args : Option String
deriving DecidableEq, Repr

/-- Model of the `StreamParser` capability interface (stream.py lines 36-47):
stateless classifier/extractor over one raw event. -/
structure StreamParser (ι : Type) where
  is_content : ι → Bool
  get_content : ι → Option String
  is_tool_call : ι → Bool
  iter_tool_calls : ι → List FunctionCallChunk

/-- Modelled from the spec: a tool `Schema` (spec 4.4) as used by the engine,
standing for `magentic.chat_model.function_schema.FunctionSchema`, which is
not part of the given source.  It carries a declared `name` and a parse
operation that consumes the call's argument-fragment sequence and returns
either a typed value or a validation error (`E` is the opaque payload of the
underlying `pydantic.ValidationError`). -/
structure FunctionSchema (E α : Type) where
  name : String
  parse_args : List String → Except E α

/-- Modelled from the spec: the async variant of the Schema capability with
the identical contract (spec 4.4), standing for `AsyncFunctionSchema`. -/
structure AsyncFunctionSchema (E α : Type) where
  name : String
  aparse_args : List String → Except E α

/-- Canonical async counterpart of a synchronous schema: the collaborator
with matching behaviour used to compare the two engines. -/
def AsyncFunctionSchema.ofSync {E α : Type} (s : FunctionSchema E α) :
    AsyncFunctionSchema E α :=
  ⟨s.name, s.parse_args⟩

/-- Modelled from the spec: `select_function_schema` (spec 4.4 `select`):
first-match lookup of a schema by its declared name. -/
def select_function_schema {E α : Type} (schemas : List (FunctionSchema E α))
    (name : String) : Option (FunctionSchema E α) :=
  schemas.find? fun s => s.name == name

/-- Modelled from the spec: async version of `select_function_schema`. -/
def aselect_function_schema {E α : Type} (schemas : List (AsyncFunctionSchema E α))
    (name : String) : Option (AsyncFunctionSchema E α) :=
  schemas.find? fun s => s.name == name

/-- Python truthiness of a `str | None` value: truthy iff present and
non-empty. -/
def truthyStr : Option String → Option String
  | some s => if s = "" then none else some s
  | none => none

/-- The content a raw event contributes inside `_streamed_str`
(`if content := self._parser.get_content(item): yield content`, line 96):
present iff `get_content` is truthy. -/
def truthyContent {ι : Type} (p : StreamParser ι) (it : ι) : Option String :=
  truthyStr (p.get_content it)

/-- The args chunk a tool-call fragment contributes inside `_tool_call`
(`if item.args: yield item.args`, lines 119-120). -/
def truthyArgs (c : FunctionCallChunk) : Option String :=
  truthyStr c.args

/-- The boundary test of `_tool_call` (line 114):
`item.id and item.id != current_tool_call_id`, i.e. the fragment carries a
truthy (non-null, non-empty) id different from the active call id. -/
def isBoundaryChunk (cur : String) (c : FunctionCallChunk) : Bool :=
  match c.id with
  | some s => !(s = "") && !(s = cur)
  | none => false

/-- An output segment (spec 3): either a text run (the fragment list the
`StreamedStr` would produce, in order) or a parsed structured value. -/
inductive Segment (α : Type) where
  | text (fragments : List String)
  | structured (output : α)
deriving DecidableEq, Repr

/-- Errors that abort the engine.  The first two model the exceptions raised
at stream.py lines 154-158 and 178-182; `assertionError` models a failing
Python `assert` (lines 147-148); `stopIteration` models `next()` raising on
an exhausted stream inside the generator (lines 126, 143); `outOfFuel` marks
inputs on which the Python loop never terminates. -/
inductive StreamError (ι E : Type) where
  | unknownTool (snapshot : List ι) (tool_call_id : String) (tool_name : String)
  | toolSchemaParse (snapshot : List ι) (tool_call_id : String) (validation_error : E)
  | assertionError (snapshot : List ι)
  | stopIteration (snapshot : List ι)
  | outOfFuel (snapshot : List ι)
deriving DecidableEq, Repr

/-- Result of driving `OutputStream.__stream__` to completion: the segments
yielded (in order), the update trace (events passed to `state.update`, in
order), and the error that aborted iteration, if any. -/
structure RunResult (ι α E : Type) where
  segments : List (Segment α)
  trace : List ι
  error : Option (StreamError ι E)
deriving DecidableEq, Repr

/-- Model of `OutputStream._streamed_str` (lines 92-103) run over a finite
stream: for each event, yield its truthy content, then stop if the event is
classified as a tool call, storing it in the lookahead cell.  Returns the
yielded fragments, the lookahead cell contents (the boundary event, if one
was found), and the unconsumed remainder of the stream. -/
def sRunGo {ι : Type} (p : StreamParser ι) : List ι → List String × Option ι × List ι
  | [] => ([], none, [])
  | it :: rest =>
    let tail := if p.is_tool_call it then ([], some it, rest) else sRunGo p rest
    match truthyContent p it with
    | some c => (c :: tail.1, tail.2)
    | none => tail

/-- Model of `OutputStream._tool_call` (lines 105-121) run over a finite
fragment stream: stop at the first fragment whose truthy id differs from the
active call id, storing it in the lookahead cell; otherwise yield the
fragment's truthy args.  Returns the yielded args chunks, the lookahead cell
contents, and the unconsumed remainder. -/
def tRunGo (cur : String) : List FunctionCallChunk →
    List String × Option FunctionCallChunk × List FunctionCallChunk
  | [] => ([], none, [])
  | c :: rest =>
    if isBoundaryChunk cur c then ([], some c, rest)
    else
      let r := tRunGo cur rest
      match truthyArgs c with
      | some a => (a :: r.1, r.2)
      | none => r

/-- Engine-side run of `_streamed_str` over the wrapped source stream
(`apply(self._state.update, self._stream)`, line 125): same routing as
`sRunGo`, but each event pulled from the stream is appended to the update
trace first (``update`` is called as the event is pulled, before it is
routed).  The chained-back lookahead event (line 130) is handled by the
caller since it was already traced when first pulled. -/
def textDrain {ι : Type} (p : StreamParser ι) :
    List ι → List ι → List String × Option ι × List ι × List ι
  | [], trace => ([], none, [], trace)
  | it :: rest, trace =>
    let tr := trace ++ [it]
    let pre := (truthyContent p it).toList
    if p.is_tool_call it then (pre, some it, rest, tr)
    else
      let r := textDrain p rest tr
      (pre ++ r.1, r.2.1, r.2.2.1, r.2.2.2)

/-- One buffer pass of the flattened tool-call fragment stream (the generator
expression at lines 138-142 holds the pending fragments of the event it is
currently flattening): running `_tool_call` over the fragments of a single
event.  Left: a boundary fragment was found (yielded args so far, the
boundary fragment, the event's unconsumed fragments).  Right: the event's
fragments were exhausted (yielded args). -/
def drainBuf (cur : String) : List FunctionCallChunk →
    (List String × FunctionCallChunk × List FunctionCallChunk) ⊕ List String
  | [] => .inr []
  | c :: rest =>
    if isBoundaryChunk cur c then .inl ([], c, rest)
    else
      match truthyArgs c, drainBuf cur rest with
      | some a, .inl (f, b, r) => .inl (a :: f, b, r)
      | some a, .inr f => .inr (a :: f)
      | none, r => r

/-- Model of `_tool_call` (lines 105-121) run against the lazily flattened
fragment stream of lines 138-142: `buf` holds the pending fragments of the
event being flattened, `items` the raw events not yet pulled, `trace` the
update trace.  Pulling a new event appends it to the trace (line 125).
Returns the args chunks yielded to the schema parse, the lookahead cell
contents (the next call's boundary fragment, if found), the pending fragment
buffer and raw events after the stop point, and the new trace. -/
def toolCallDrain {ι : Type} (p : StreamParser ι) (cur : String) :
    List FunctionCallChunk → List ι → List ι →
    List String × Option FunctionCallChunk × List FunctionCallChunk × List ι × List ι
  | buf, items, trace =>
    match drainBuf cur buf with
    | .inl (f, b, buf') => (f, some b, buf', items, trace)
    | .inr f =>
      match items with
      | [] => (f, none, [], [], trace)
      | it :: items' =>
        let r := toolCallDrain p cur (p.iter_tool_calls it) items' (trace ++ [it])
        (f ++ r.1, r.2)

/-- Priming pull `tool_call_ref = [next(tool_calls_stream)]` (line 143) on
the lazily flattened fragment stream: skip events contributing no fragments
(tracing them as they are pulled) until a first fragment appears; `none`
if the stream is exhausted first. -/
def pullChunk {ι : Type} (p : StreamParser ι) :
    List FunctionCallChunk → List ι → List ι →
    Option FunctionCallChunk × List FunctionCallChunk × List ι × List ι
  | c :: buf, items, trace => (some c, buf, items, trace)
  | [], [], trace => (none, [], [], trace)
  | [], it :: items, trace => pullChunk p (p.iter_tool_calls it) items (trace ++ [it])

/-- Model of the inner `while tool_call_ref` loop (lines 144-182): one
iteration per structured call.  `c` is the call's boundary fragment popped
from the lookahead cell; the fragment carries the call id and tool name
(Python asserts, lines 147-148), the schema is looked up by name (unknown
tool aborts, lines 152-158), the call's argument fragments are drained and
parsed (a validation error aborts, lines 176-182), and the loop continues
from the next boundary fragment, if any.  Fuel only runs out on inputs where
the Python loop would not terminate; every actual call consumes stream. -/
def toolLoop {ι E α : Type} (p : StreamParser ι) (schemas : List (FunctionSchema E α)) :
    Nat → FunctionCallChunk → List FunctionCallChunk → List ι → List ι →
    List (Segment α) → RunResult ι α E
  | 0, _, _, _, trace, acc => ⟨acc.reverse, trace, some (.outOfFuel trace)⟩
  | fuel + 1, c, buf, items, trace, acc =>
    match c.id, c.name with
    | some i, some n =>
      match select_function_schema schemas n with
      | none => ⟨acc.reverse, trace, some (.unknownTool trace i n)⟩
      | some schema =>
        match toolCallDrain p i (c :: buf) items trace with
        | (frags, some c', buf', items', trace') =>
          match schema.parse_args frags with
          | .error e => ⟨acc.reverse, trace', some (.toolSchemaParse trace' i e)⟩
          | .ok out =>
            toolLoop p schemas fuel c' buf' items' trace' (.structured out :: acc)
        | (frags, none, _, _, trace') =>
          match schema.parse_args frags with
          | .error e => ⟨acc.reverse, trace', some (.toolSchemaParse trace' i e)⟩
          | .ok out => ⟨(.structured out :: acc).reverse, trace', none⟩
    | _, _ => ⟨acc.reverse, trace, some (.assertionError trace)⟩

/-- Upper bound on the fragments and events still to be consumed by the tool
phase; used to budget `toolLoop`'s fuel. -/
def streamSize {ι : Type} (p : StreamParser ι) (buf : List FunctionCallChunk)
    (items : List ι) : Nat :=
  buf.length + (items.map fun it => (p.iter_tool_calls it).length + 1).sum

/-- Model of the outer `while current_item_ref` loop of `__stream__`
(lines 127-184).  `cur` is the popped lookahead event, `items` the events
not yet pulled, `trace` the update trace, `acc` the segments yielded so far
(reversed).  Content events open a text segment (which the engine itself
drains when abandoned, line 136, so the routing is that of a full drain);
tool-call events enter the tool phase, which runs to source exhaustion or an
error; other events are skipped after their `update` (lines 183-184).
Fuel only runs out when an event is both content- and tool-call-classified
and becomes its own boundary, in which case the Python loop re-yields the
same text segment forever. -/
def streamLoop {ι E α : Type} (p : StreamParser ι) (schemas : List (FunctionSchema E α)) :
    Nat → ι → List ι → List ι → List (Segment α) → RunResult ι α E
  | 0, _, _, trace, acc => ⟨acc.reverse, trace, some (.outOfFuel trace)⟩
  | fuel + 1, cur, items, trace, acc =>
    if p.is_content cur then
      let pre := (truthyContent p cur).toList
      if p.is_tool_call cur then
        streamLoop p schemas fuel cur items trace (.text pre :: acc)
      else
        match textDrain p items trace with
        | (frags, some b, rest, trace') =>
          streamLoop p schemas fuel b rest trace' (.text (pre ++ frags) :: acc)
        | (frags, none, _, trace') => ⟨(.text (pre ++ frags) :: acc).reverse, trace', none⟩
    else if p.is_tool_call cur then
      match pullChunk p (p.iter_tool_calls cur) items trace with
      | (some c, buf, items', trace') =>
        toolLoop p schemas (streamSize p buf items' + 1) c buf items' trace' acc
      | (none, _, _, trace') => ⟨acc.reverse, trace', some (.stopIteration trace')⟩
    else
      match items with
      | [] => ⟨acc.reverse, trace, none⟩
      | it :: rest => streamLoop p schemas fuel it rest (trace ++ [it]) acc

/-- Model of `OutputStream.__stream__` (lines 123-184) driven to completion
over a finite source: the priming `next` (line 126) updates and stores the
first event (raising on an empty source, which inside a generator surfaces
as a runtime error), then the grouping loop runs. -/
def runEngine {ι E α : Type} (p : StreamParser ι) (schemas : List (FunctionSchema E α))
    (source : List ι) : RunResult ι α E :=
  match source with
  | [] => ⟨[], [], some (.stopIteration [])⟩
  | cur :: rest => streamLoop p schemas (rest.length + 2) cur rest [cur] []

/-- One resumption of the suspended `_streamed_str` generator: what happens
between two `next()` calls on the text segment.  The generator state is the
lookahead pair `(pending, rest)`: `pending` is the event whose content was
just yielded but whose tool-call check (line 98) has not yet run; `rest` is
the unconsumed stream. -/
inductive SNext (ι : Type) where
  | yld (content : String) (pending : ι) (rest : List ι)
  | fin (boundary : Option ι) (rest : List ι)
deriving DecidableEq, Repr

/-- Advance `_streamed_str` from the top of its `for` loop to the next yield
or to its return (lines 95-103). -/
def snextGo {ι : Type} (p : StreamParser ι) : List ι → SNext ι
  | [] => .fin none []
  | it :: rest =>
    match truthyContent p it with
    | some c => .yld c it rest
    | none => if p.is_tool_call it then .fin (some it) rest else snextGo p rest

/-- Advance `_streamed_str` from a suspension point: first finish the pending
event's tool-call check, then continue the loop. -/
def snext {ι : Type} (p : StreamParser ι) : Option ι × List ι → SNext ι
  | (some it, rest) => if p.is_tool_call it then .fin (some it) rest else snextGo p rest
  | (none, l) => snextGo p l

/-- Fully drain `_streamed_str` from a suspension point: the fragments it
still yields, the lookahead cell contents, and the unconsumed remainder. -/
def sRunState {ι : Type} (p : StreamParser ι) :
    Option ι × List ι → List String × Option ι × List ι
  | (some it, rest) => if p.is_tool_call it then ([], some it, rest) else sRunGo p rest
  | (none, l) => sRunGo p l

/-- Outcome of a consumer taking a bounded number of fragments from a text
segment: either the consumer stopped first (the generator is suspended) or
the generator finished first (boundary found or stream exhausted). -/
inductive TextConsumeResult (ι : Type) where
  | suspended (taken : List String) (pending : Option ι) (rest : List ι)
  | finished (taken : List String) (boundary : Option ι) (rest : List ι)
deriving DecidableEq, Repr

/-- A consumer draining at most `k` fragments from the suspended
`_streamed_str` generator before abandoning the text segment. -/
def sRunTake {ι : Type} (p : StreamParser ι) : Nat → Option ι × List ι → TextConsumeResult ι
  | 0, st => .suspended [] st.1 st.2
  | k + 1, st =>
    match snext p st with
    | .yld c pend rest =>
      match sRunTake p k (some pend, rest) with
      | .suspended taken pd rs => .suspended (c :: taken) pd rs
      | .finished taken b rs => .finished (c :: taken) b rs
    | .fin b rest => .finished [] b rest

/-- The engine finishing an abandoned text segment on the consumer's behalf
(`consume(streamed_str)`, line 136): drain the suspended generator and
prepend the fragments the consumer already saw.  Gives the total fragment
sequence, the lookahead cell contents and the unconsumed remainder. -/
def resumeText {ι : Type} (p : StreamParser ι) :
    TextConsumeResult ι → List String × Option ι × List ι
  | .suspended taken pend rest =>
    (taken ++ (sRunState p (pend, rest)).1, (sRunState p (pend, rest)).2)
  | .finished taken b rest => (taken, b, rest)

/-- Advance `_tool_call` from the top of its `for` loop to the next yield or
to its return (lines 111-121); its generator state is just the unconsumed
fragment stream. -/
def tnext (cur : String) : List FunctionCallChunk → SNext FunctionCallChunk
  | [] => .fin none []
  | c :: rest =>
    if isBoundaryChunk cur c then .fin (some c) rest
    else
      match truthyArgs c with
      | some a => .yld a c rest
      | none => tnext cur rest

/-- A consumer (here: the schema's parse) taking at most `k` args chunks from
the suspended `_tool_call` generator before stopping. -/
def tRunTake (cur : String) : Nat → List FunctionCallChunk → TextConsumeResult FunctionCallChunk
  | 0, l => .suspended [] none l
  | k + 1, l =>
    match tnext cur l with
    | .yld a _ rest =>
      match tRunTake cur k rest with
      | .suspended taken pd rs => .suspended (a :: taken) pd rs
      | .finished taken b rs => .finished (a :: taken) b rs
    | .fin b rest => .finished [] b rest

/-- The engine finishing an abandoned structured segment on the consumer's
behalf by iterating the yielded typed value (`consume(output)`, line 174,
which pulls the residual fragments of the same `_tool_call` generator):
drain the suspended generator and prepend the chunks already consumed. -/
def resumeTool (cur : String) : TextConsumeResult FunctionCallChunk →
    List String × Option FunctionCallChunk × List FunctionCallChunk
  | .suspended taken _ rest => (taken ++ (tRunGo cur rest).1, (tRunGo cur rest).2)
  | .finished taken b rest => (taken, b, rest)

/-- Reference grouping of a flat fragment stream into calls, written after
the spec's nested fragment-level grouping (spec 4.3): each call starts at a
boundary fragment, its body is the run of fragments up to the next fragment
with a truthy id different from the head's id, and its argument text is the
truthy args of head and body in source order.  Fuel is the list length
(every group consumes at least its head fragment). -/
def callGroupsF : Nat → List FunctionCallChunk → List (FunctionCallChunk × List String)
  | 0, _ => []
  | _, [] => []
  | fuel + 1, c :: rest =>
    let cur := c.id.getD ""
    (c, (c :: rest.takeWhile fun d => !isBoundaryChunk cur d).filterMap truthyArgs)
      :: callGroupsF fuel (rest.dropWhile fun d => !isBoundaryChunk cur d)

/-- Reference grouping of a fragment stream into calls (see `callGroupsF`). -/
def callGroups (chunks : List FunctionCallChunk) : List (FunctionCallChunk × List String) :=
  callGroupsF chunks.length chunks

/-- Reference outputs of the tool phase: each call's schema, looked up by the
head fragment's name, applied to the call's argument text, keeping the
successfully parsed values in call order. -/
def specOutputs {E α : Type} (schemas : List (FunctionSchema E α))
    (chunks : List FunctionCallChunk) : List α :=
  (callGroups chunks).filterMap fun g =>
    (g.1.name.bind fun n => select_function_schema schemas n).bind fun s =>
      (s.parse_args g.2).toOption

/-- A concrete raw-event type used to evaluate the model on explicit inputs:
a content chunk, a tool-call chunk, a chunk carrying both a text delta and a
tool-call fragment, or an administrative event (usage or stop-reason only). -/
inductive Ev where
  | content (s : String)
  | tool (id name args : Option String)
  | mixed (s : String) (id name args : Option String)
  | admin
deriving DecidableEq, Repr

/-- The natural parser for `Ev`: content events carry their text, tool events
carry exactly one fragment, mixed events carry both, administrative events
carry nothing. -/
def evParser : StreamParser Ev where
  is_content := fun e => match e with | .content _ => true | _ => false
  get_content := fun e => match e with
    | .content s => some s
    | .mixed s _ _ _ => some s
    | _ => none
  is_tool_call := fun e => match e with
    | .tool _ _ _ => true
    | .mixed _ _ _ _ => true
    | _ => false
  iter_tool_calls := fun e => match e with
    | .tool i n a => [⟨i, n, a⟩]
    | .mixed _ i n a => [⟨i, n, a⟩]
    | _ => []

/-- A schema that accepts any argument text and returns the tool name paired
with the concatenated arguments. -/
def echoSchema (n : String) : FunctionSchema String (String × String) :=
  ⟨n, fun frags => .ok (n, String.join frags)⟩

/-- A schema expecting a number: validation fails unless the concatenated
argument text is a non-empty digit string. -/
def numSchema (n : String) : FunctionSchema String (String × String) :=
  ⟨n, fun frags =>
    let s := String.join frags
    if s ≠ "" && s.data.all Char.isDigit then .ok (n, s) else .error "validation failed"⟩

/-- Model of `AsyncOutputStream._streamed_str` (lines 216-227) at the engine
level, mirroring `textDrain`: same routing, events traced as pulled through
`aapply(self._state.update, self._stream)` (line 246). -/
def atextDrain {ι : Type} (p : StreamParser ι) :
    List ι → List ι → List String × Option ι × List ι × List ι
  | [], trace => ([], none, [], trace)
  | it :: rest, trace =>
    let tr := trace ++ [it]
    let pre := (truthyContent p it).toList
    if p.is_tool_call it then (pre, some it, rest, tr)
    else
      let r := atextDrain p rest tr
      (pre ++ r.1, r.2.1, r.2.2.1, r.2.2.2)

/-- One buffer pass of the async flattened fragment stream (the async
generator expression at lines 261-265), mirroring `drainBuf`. -/
def adrainBuf (cur : String) : List FunctionCallChunk →
    (List String × FunctionCallChunk × List FunctionCallChunk) ⊕ List String
  | [] => .inr []
  | c :: rest =>
    if isBoundaryChunk cur c then .inl ([], c, rest)
    else
      match truthyArgs c, adrainBuf cur rest with
      | some a, .inl (f, b, r) => .inl (a :: f, b, r)
      | some a, .inr f => .inr (a :: f)
      | none, r => r

/-- Model of `AsyncOutputStream._tool_call` (lines 229-243) against the
lazily flattened async fragment stream, mirroring `toolCallDrain`. -/
def atoolCallDrain {ι : Type} (p : StreamParser ι) (cur : String) :
    List FunctionCallChunk → List ι → List ι →
    List String × Option FunctionCallChunk × List FunctionCallChunk × List ι × List ι
  | buf, items, trace =>
    match adrainBuf cur buf with
    | .inl (f, b, buf') => (f, some b, buf', items, trace)
    | .inr f =>
      match items with
      | [] => (f, none, [], [], trace)
      | it :: items' =>
        let r := atoolCallDrain p cur (p.iter_tool_calls it) items' (trace ++ [it])
        (f ++ r.1, r.2)

/-- Priming pull `tool_call_ref = [await anext(tool_calls_stream)]`
(line 266), mirroring `pullChunk`. -/
def apullChunk {ι : Type} (p : StreamParser ι) :
    List FunctionCallChunk → List ι → List ι →
    Option FunctionCallChunk × List FunctionCallChunk × List ι × List ι
  | c :: buf, items, trace => (some c, buf, items, trace)
  | [], [], trace => (none, [], [], trace)
  | [], it :: items, trace => apullChunk p (p.iter_tool_calls it) items (trace ++ [it])

/-- Model of the async inner `while tool_call_ref` loop (lines 267-304),
mirroring `toolLoop` with `aparse_args` in place of `parse_args`. -/
def atoolLoop {ι E α : Type} (p : StreamParser ι)
    (schemas : List (AsyncFunctionSchema E α)) :
    Nat → FunctionCallChunk → List FunctionCallChunk → List ι → List ι →
    List (Segment α) → RunResult ι α E
  | 0, _, _, _, trace, acc => ⟨acc.reverse, trace, some (.outOfFuel trace)⟩
  | fuel + 1, c, buf, items, trace, acc =>
    match c.id, c.name with
    | some i, some n =>
      match aselect_function_schema schemas n with
      | none => ⟨acc.reverse, trace, some (.unknownTool trace i n)⟩
      | some schema =>
        match atoolCallDrain p i (c :: buf) items trace with
        | (frags, some c', buf', items', trace') =>
          match schema.aparse_args frags with
          | .error e => ⟨acc.reverse, trace', some (.toolSchemaParse trace' i e)⟩
          | .ok out =>
            atoolLoop p schemas fuel c' buf' items' trace' (.structured out :: acc)
        | (frags, none, _, _, trace') =>
          match schema.aparse_args frags with
          | .error e => ⟨acc.reverse, trace', some (.toolSchemaParse trace' i e)⟩
          | .ok out => ⟨(.structured out :: acc).reverse, trace', none⟩
    | _, _ => ⟨acc.reverse, trace, some (.assertionError trace)⟩

/-- Model of the async outer `while current_item_ref` loop (lines 248-306),
mirroring `streamLoop`. -/
def astreamLoop {ι E α : Type} (p : StreamParser ι)
    (schemas : List (AsyncFunctionSchema E α)) :
    Nat → ι → List ι → List ι → List (Segment α) → RunResult ι α E
  | 0, _, _, trace, acc => ⟨acc.reverse, trace, some (.outOfFuel trace)⟩
  | fuel + 1, cur, items, trace, acc =>
    if p.is_content cur then
      let pre := (truthyContent p cur).toList
      if p.is_tool_call cur then
        astreamLoop p schemas fuel cur items trace (.text pre :: acc)
      else
        match atextDrain p items trace with
        | (frags, some b, rest, trace') =>
          astreamLoop p schemas fuel b rest trace' (.text (pre ++ frags) :: acc)
        | (frags, none, _, trace') => ⟨(.text (pre ++ frags) :: acc).reverse, trace', none⟩
    else if p.is_tool_call cur then
      match apullChunk p (p.iter_tool_calls cur) items trace with
      | (some c, buf, items', trace') =>
        atoolLoop p schemas (streamSize p buf items' + 1) c buf items' trace' acc
      | (none, _, _, trace') => ⟨acc.reverse, trace', some (.stopIteration trace')⟩
    else
      match items with
      | [] => ⟨acc.reverse, trace, none⟩
      | it :: rest => astreamLoop p schemas fuel it rest (trace ++ [it]) acc

/-- Model of `AsyncOutputStream.__stream__` (lines 245-306) driven to
completion over a finite source, mirroring `runEngine`. -/
def runAsyncEngine {ι E α : Type} (p : StreamParser ι)
    (schemas : List (AsyncFunctionSchema E α)) (source : List ι) : RunResult ι α E :=
  match source with
  | [] => ⟨[], [], some (.stopIteration [])⟩
  | cur :: rest => astreamLoop p schemas (rest.length + 2) cur rest [cur] []

/-- Closed form of `_tool_call` over a fragment list: the yielded args are
the truthy args of the fragments before the first boundary, in source order;
the lookahead cell holds the first boundary fragment; the remainder is what
follows it. -/
theorem tRunGo_closed (cur : String) (l : List FunctionCallChunk) :
    tRunGo cur l =
      ((l.takeWhile fun d => !isBoundaryChunk cur d).filterMap truthyArgs,
       (l.dropWhile fun d => !isBoundaryChunk cur d).head?,
       (l.dropWhile fun d => !isBoundaryChunk cur d).tail) := by
  induction l with
  | nil => rfl
  | cons c rest ih =>
    cases h : isBoundaryChunk cur c with
    | true => simp [tRunGo, h, List.takeWhile_cons, List.dropWhile_cons]
    | false =>
      cases ha : truthyArgs c <;>
        simp [tRunGo, h, ha, List.takeWhile_cons, List.dropWhile_cons, ih]

/-- A single buffer pass agrees with `_tool_call` on that buffer. -/
theorem drainBuf_eq (cur : String) (buf : List FunctionCallChunk) :
    (match drainBuf cur buf with
     | .inl (f, b, r) =>
       ((f, some b, r) : List String × Option FunctionCallChunk × List FunctionCallChunk)
     | .inr f => (f, none, [])) = tRunGo cur buf := by
  induction buf with
  | nil => rfl
  | cons c rest ih =>
    cases h : isBoundaryChunk cur c with
    | true => simp [drainBuf, tRunGo, h]
    | false =>
      cases ha : truthyArgs c <;>
        cases hdb : drainBuf cur rest <;>
          simp [drainBuf, tRunGo, h, ha, hdb, ← ih]

/-- Splitting `_tool_call` over a concatenation at the first buffer. -/
theorem tRunGo_append (cur : String) (l1 l2 : List FunctionCallChunk) :
    tRunGo cur (l1 ++ l2) =
      match drainBuf cur l1 with
      | .inl (f, b, r) => (f, some b, r ++ l2)
      | .inr f => (f ++ (tRunGo cur l2).1, (tRunGo cur l2).2) := by
  induction l1 with
  | nil => simp [drainBuf]
  | cons c rest ih =>
    cases h : isBoundaryChunk cur c with
    | true => simp [drainBuf, tRunGo, h]
    | false =>
      cases ha : truthyArgs c <;>
        cases hdb : drainBuf cur rest <;>
          simp [drainBuf, tRunGo, h, ha, hdb, ih]


theorem toolCallDrain_flatten {ι : Type} (p : StreamParser ι) (cur : String) :
    ∀ (items : List ι) (buf : List FunctionCallChunk) (trace : List ι),
    tRunGo cur (buf ++ items.flatMap p.iter_tool_calls) =
      ((toolCallDrain p cur buf items trace).1,
       (toolCallDrain p cur buf items trace).2.1,
       (toolCallDrain p cur buf items trace).2.2.1
         ++ (toolCallDrain p cur buf items trace).2.2.2.1.flatMap p.iter_tool_calls) := by
  intro items
  induction items with
  | nil =>
    intro buf trace
    rw [toolCallDrain.eq_def]
    simp only [List.flatMap_nil, List.append_nil]
    rw [← drainBuf_eq cur buf]
    cases hdb : drainBuf cur buf with
    | inl x => rcases x with ⟨f, b, r⟩; simp [hdb]
    | inr f => simp [hdb]
  | cons it items' ih =>
    intro buf trace
    rw [toolCallDrain.eq_def, tRunGo_append]
    cases hdb : drainBuf cur buf with
    | inl x => rcases x with ⟨f, b, r⟩; simp [hdb]
    | inr f =>
      have h2 := ih (p.iter_tool_calls it) (trace ++ [it])
      simp only [List.flatMap_cons, ← List.append_assoc, tRunGo_append] at h2
      simp only [List.flatMap_cons, ← List.append_assoc, tRunGo_append, hdb]
      cases hdb2 : drainBuf cur (p.iter_tool_calls it) with
      | inl y =>
        rcases y with ⟨f2, b2, r2⟩
        simp only [hdb2] at h2 ⊢
        simp_all
      | inr f2 =>
        simp only [hdb2] at h2 ⊢
        simp_all

theorem toolCallDrain_trace {ι : Type} (p : StreamParser ι) (cur : String) :
    ∀ (items : List ι) (buf : List FunctionCallChunk) (trace : List ι),
    (toolCallDrain p cur buf items trace).2.2.2.2
        ++ (toolCallDrain p cur buf items trace).2.2.2.1 = trace ++ items := by
  intro items
  induction items with
  | nil =>
    intro buf trace
    rw [toolCallDrain.eq_def]
    cases hdb : drainBuf cur buf with
    | inl x => rcases x with ⟨f, b, r⟩; simp [hdb]
    | inr f => simp [hdb]
  | cons it items' ih =>
    intro buf trace
    rw [toolCallDrain.eq_def]
    cases hdb : drainBuf cur buf with
    | inl x => rcases x with ⟨f, b, r⟩; simp [hdb]
    | inr f => simp [hdb, ih]

theorem toolCallDrain_exhausted {ι : Type} (p : StreamParser ι) (cur : String) :
    ∀ (items : List ι) (buf : List FunctionCallChunk) (trace : List ι),
    (toolCallDrain p cur buf items trace).2.1 = none →
    (toolCallDrain p cur buf items trace).2.2.2.1 = [] := by
  intro items
  induction items with
  | nil =>
    intro buf trace
    rw [toolCallDrain.eq_def]
    cases hdb : drainBuf cur buf with
    | inl x => rcases x with ⟨f, b, r⟩; simp [hdb]
    | inr f => simp [hdb]
  | cons it items' ih =>
    intro buf trace
    rw [toolCallDrain.eq_def]
    cases hdb : drainBuf cur buf with
    | inl x => rcases x with ⟨f, b, r⟩; simp [hdb]
    | inr f => simp [hdb]; exact ih _ _

theorem pullChunk_trace {ι : Type} (p : StreamParser ι) :
    ∀ (items : List ι) (buf : List FunctionCallChunk) (trace : List ι),
    (pullChunk p buf items trace).2.2.2 ++ (pullChunk p buf items trace).2.2.1
      = trace ++ items := by
  intro items
  induction items with
  | nil => intro buf trace; cases buf <;> simp [pullChunk]
  | cons it items' ih => intro buf trace; cases buf <;> simp [pullChunk, ih]

theorem pullChunk_flatten {ι : Type} (p : StreamParser ι) :
    ∀ (items : List ι) (buf : List FunctionCallChunk) (trace : List ι),
    buf ++ items.flatMap p.iter_tool_calls =
      (match pullChunk p buf items trace with
       | (some c, buf', items', _) => c :: (buf' ++ items'.flatMap p.iter_tool_calls)
       | (none, _, _, _) => []) := by
  intro items
  induction items with
  | nil => intro buf trace; cases buf <;> simp [pullChunk]
  | cons it items' ih =>
    intro buf trace
    cases buf with
    | nil =>
      simp only [pullChunk, List.nil_append, List.flatMap_cons]
      exact ih _ (trace ++ [it])
    | cons c buf' => simp [pullChunk]

theorem textDrain_trace {ι : Type} (p : StreamParser ι) :
    ∀ (l trace : List ι),
    (textDrain p l trace).2.2.2 ++ (textDrain p l trace).2.2.1 = trace ++ l := by
  intro l
  induction l with
  | nil => intro trace; simp [textDrain]
  | cons it rest ih =>
    intro trace
    cases h : p.is_tool_call it <;> simp [textDrain, h, ih]

theorem textDrain_exhausted {ι : Type} (p : StreamParser ι) :
    ∀ (l trace : List ι), (textDrain p l trace).2.1 = none →
    (textDrain p l trace).2.2.1 = [] := by
  intro l
  induction l with
  | nil => intro trace; simp [textDrain]
  | cons it rest ih =>
    intro trace
    cases h : p.is_tool_call it <;> simp [textDrain, h]
    exact ih _

/-- A fragment never bounds its own call: the boundary test is false against
the id taken from the fragment itself. -/
theorem self_not_boundary {c : FunctionCallChunk} {i : String} (hid : c.id = some i) :
    isBoundaryChunk i c = false := by
  simp only [isBoundaryChunk, hid, Bool.and_eq_false_iff]
  right
  simp

/-- The reference grouping is independent of the fuel bound once the bound
covers the list length. -/
theorem callGroupsF_mono : ∀ (f1 f2 : Nat) (l : List FunctionCallChunk),
    l.length ≤ f1 → l.length ≤ f2 → callGroupsF f1 l = callGroupsF f2 l := by
  intro f1
  induction f1 with
  | zero =>
    intro f2 l h1 _
    rw [List.length_eq_zero.mp (Nat.le_zero.mp h1)]
    cases f2 <;> simp [callGroupsF]
  | succ f1 ih =>
    intro f2 l h1 h2
    cases l with
    | nil => cases f2 <;> simp [callGroupsF]
    | cons c rest =>
      cases f2 with
      | zero => simp at h2
      | succ f2 =>
        have hr1 : rest.length ≤ f1 := by
          have := Nat.le_of_succ_le_succ (by simpa using h1)
          exact this
        have hr2 : rest.length ≤ f2 := by
          have := Nat.le_of_succ_le_succ (by simpa using h2)
          exact this
        have hd := List.Sublist.length_le
          (List.dropWhile_sublist
            (l := rest) (fun d => !isBoundaryChunk (c.id.getD "") d))
        simp only [callGroupsF]
        exact congrArg _ (ih f2 _ (le_trans hd hr1) (le_trans hd hr2))

/-- Unfolding of the reference grouping at a call head. -/
theorem callGroups_cons (c : FunctionCallChunk) (rest : List FunctionCallChunk) :
    callGroups (c :: rest) =
      (c, (c :: rest.takeWhile fun d => !isBoundaryChunk (c.id.getD "") d).filterMap truthyArgs)
        :: callGroups (rest.dropWhile fun d => !isBoundaryChunk (c.id.getD "") d) := by
  have hd := List.Sublist.length_le
    (List.dropWhile_sublist (l := rest) (fun d => !isBoundaryChunk (c.id.getD "") d))
  unfold callGroups
  simp only [List.length_cons, callGroupsF]
  exact congrArg _ (callGroupsF_mono _ _ _ hd (Nat.le_refl _))

theorem toolLoop_trace {ι E α : Type} (p : StreamParser ι) (schemas : List (FunctionSchema E α)) :
    ∀ (fuel : Nat) (c : FunctionCallChunk) (buf : List FunctionCallChunk)
      (items trace : List ι) (acc : List (Segment α)),
    (toolLoop p schemas fuel c buf items trace acc).error = none →
    (toolLoop p schemas fuel c buf items trace acc).trace = trace ++ items := by
  intro fuel
  induction fuel with
  | zero => intro c buf items trace acc h; simp [toolLoop] at h
  | succ fuel ih =>
    intro c buf items trace acc h
    simp only [toolLoop] at h ⊢
    cases hid : c.id with
    | none => simp [hid] at h
    | some i =>
      cases hname : c.name with
      | none => simp [hid, hname] at h
      | some n =>
        cases hsel : select_function_schema schemas n with
        | none => simp [hid, hname, hsel] at h
        | some schema =>
          rcases hd : toolCallDrain p i (c :: buf) items trace with
            ⟨frags, b, buf', items', trace'⟩
          have htr := toolCallDrain_trace p i items (c :: buf) trace
          rw [hd] at htr
          cases b with
          | some c' =>
            cases hp : schema.parse_args frags with
            | error e => simp [hid, hname, hsel, hd, hp] at h
            | ok out =>
              simp only [hid, hname, hsel, hd, hp] at h ⊢
              rw [ih _ _ _ _ _ h]
              exact htr
          | none =>
            cases hp : schema.parse_args frags with
            | error e => simp [hid, hname, hsel, hd, hp] at h
            | ok out =>
              have hex : items' = [] := by
                have hx := toolCallDrain_exhausted p i items (c :: buf) trace
                rw [hd] at hx
                exact hx rfl
              rw [hex, List.append_nil] at htr
              simp only [hid, hname, hsel, hd, hp]
              exact htr

theorem toolLoop_segments {ι E α : Type} (p : StreamParser ι)
    (schemas : List (FunctionSchema E α)) :
    ∀ (fuel : Nat) (c : FunctionCallChunk) (buf : List FunctionCallChunk)
      (items trace : List ι) (acc : List (Segment α)),
    (toolLoop p schemas fuel c buf items trace acc).error = none →
    (toolLoop p schemas fuel c buf items trace acc).segments =
      acc.reverse ++
        (specOutputs schemas (c :: (buf ++ items.flatMap p.iter_tool_calls))).map
          Segment.structured := by
  intro fuel
  induction fuel with
  | zero => intro c buf items trace acc h; simp [toolLoop] at h
  | succ fuel ih =>
    intro c buf items trace acc h
    simp only [toolLoop] at h ⊢
    cases hid : c.id with
    | none => simp [hid] at h
    | some i =>
      cases hname : c.name with
      | none => simp [hid, hname] at h
      | some n =>
        cases hsel : select_function_schema schemas n with
        | none => simp [hid, hname, hsel] at h
        | some schema =>
          rcases hd : toolCallDrain p i (c :: buf) items trace with
            ⟨frags, b, buf', items', trace'⟩
          have hfl := toolCallDrain_flatten p i items (c :: buf) trace
          rw [hd, tRunGo_closed] at hfl
          have hq : isBoundaryChunk i c = false := self_not_boundary hid
          simp only [List.cons_append, List.takeWhile_cons, List.dropWhile_cons, hq,
            Bool.not_false, if_true, Prod.mk.injEq] at hfl
          obtain ⟨hfrags, hb, hrest⟩ := hfl
          have hgrp := callGroups_cons c (buf ++ items.flatMap p.iter_tool_calls)
          rw [hid] at hgrp
          simp only [Option.getD_some] at hgrp
          cases b with
          | some c' =>
            cases hdw : (buf ++ items.flatMap p.iter_tool_calls).dropWhile
                (fun d => !isBoundaryChunk i d) with
            | nil => rw [hdw] at hb; simp at hb
            | cons x xs =>
              rw [hdw] at hb hrest
              simp only [List.head?_cons, Option.some.injEq] at hb
              simp only [List.tail_cons] at hrest
              cases hp : schema.parse_args frags with
              | error e => simp [hid, hname, hsel, hd, hp] at h
              | ok out =>
                simp only [hid, hname, hsel, hd, hp] at h ⊢
                rw [ih _ _ _ _ _ h]
                have hspec : specOutputs schemas
                    (c :: (buf ++ items.flatMap p.iter_tool_calls)) =
                    out :: specOutputs schemas (c' :: (buf' ++ items'.flatMap p.iter_tool_calls)) := by
                  unfold specOutputs
                  rw [hgrp, hdw, hb, hrest]
                  simp [List.filterMap_cons, hname, hsel, hfrags, hp, Except.toOption]
                rw [hspec]
                simp
          | none =>
            have hdw : (buf ++ items.flatMap p.iter_tool_calls).dropWhile
                (fun d => !isBoundaryChunk i d) = [] := by
              rw [← List.head?_eq_none_iff]; exact hb
            cases hp : schema.parse_args frags with
            | error e => simp [hid, hname, hsel, hd, hp] at h
            | ok out =>
              simp only [hid, hname, hsel, hd, hp] at h ⊢
              have hspec : specOutputs schemas
                  (c :: (buf ++ items.flatMap p.iter_tool_calls)) = [out] := by
                unfold specOutputs
                rw [hgrp, hdw]
                simp [List.filterMap_cons, hname, hsel, hfrags, hp, Except.toOption,
                  callGroups, callGroupsF]
              rw [hspec]
              simp

theorem streamLoop_trace {ι E α : Type} (p : StreamParser ι)
    (schemas : List (FunctionSchema E α)) :
    ∀ (fuel : Nat) (cur : ι) (items trace : List ι) (acc : List (Segment α)),
    (streamLoop p schemas fuel cur items trace acc).error = none →
    (streamLoop p schemas fuel cur items trace acc).trace = trace ++ items := by
  intro fuel
  induction fuel with
  | zero => intro cur items trace acc h; simp [streamLoop] at h
  | succ fuel ih =>
    intro cur items trace acc h
    simp only [streamLoop] at h ⊢
    cases hc : p.is_content cur with
    | true =>
      simp only [hc, if_true] at h ⊢
      cases ht : p.is_tool_call cur with
      | true =>
        simp only [ht, if_true] at h ⊢
        exact ih _ _ _ _ h
      | false =>
        simp only [ht, Bool.false_eq_true, if_false] at h ⊢
        rcases htd : textDrain p items trace with ⟨frags, b, rest, trace'⟩
        have htr := textDrain_trace p items trace
        rw [htd] at htr
        cases b with
        | some bv =>
          simp only [htd] at h ⊢
          rw [ih _ _ _ _ h]
          exact htr
        | none =>
          have hex : rest = [] := by
            have hx := textDrain_exhausted p items trace
            rw [htd] at hx
            exact hx rfl
          rw [hex, List.append_nil] at htr
          simp only [htd]
          exact htr
    | false =>
      simp only [hc, Bool.false_eq_true, if_false] at h ⊢
      cases ht : p.is_tool_call cur with
      | true =>
        simp only [ht, if_true] at h ⊢
        rcases hpc : pullChunk p (p.iter_tool_calls cur) items trace with
          ⟨copt, buf, items', trace'⟩
        have hptr := pullChunk_trace p items (p.iter_tool_calls cur) trace
        rw [hpc] at hptr
        cases copt with
        | some c =>
          simp only [hpc] at h ⊢
          rw [toolLoop_trace p schemas _ _ _ _ _ _ h]
          exact hptr
        | none => simp [hpc] at h
      | false =>
        simp only [ht, Bool.false_eq_true, if_false] at h ⊢
        cases items with
        | nil => simp
        | cons it rest =>
          simp only at h ⊢
          rw [ih _ _ _ _ h]
          simp

theorem textDrain_no_tool {ι : Type} (p : StreamParser ι) :
    ∀ (A trace : List ι), (∀ a ∈ A, p.is_tool_call a = false) →
    textDrain p A trace = (A.filterMap (truthyContent p), none, [], trace ++ A) := by
  intro A
  induction A with
  | nil => intro trace _; simp [textDrain]
  | cons a A' ih =>
    intro trace hA
    have ha : p.is_tool_call a = false := hA a (by simp)
    have ih' := ih (trace ++ [a]) fun x hx => hA x (by simp [hx])
    cases hg : truthyContent p a <;>
      simp [textDrain, ha, ih', List.filterMap_cons, hg]

theorem textDrain_to_boundary {ι : Type} (p : StreamParser ι) :
    ∀ (A : List ι) (t : ι) (B trace : List ι),
    (∀ a ∈ A, p.is_tool_call a = false) → p.is_tool_call t = true →
    textDrain p (A ++ t :: B) trace =
      (A.filterMap (truthyContent p) ++ (truthyContent p t).toList, some t, B,
       trace ++ A ++ [t]) := by
  intro A
  induction A with
  | nil =>
    intro t B trace _ htool
    cases hg : truthyContent p t <;> simp [textDrain, htool, hg]
  | cons a A' ih =>
    intro t B trace hA htool
    have ha : p.is_tool_call a = false := hA a (by simp)
    have ih' := ih t B (trace ++ [a]) (fun x hx => hA x (by simp [hx])) htool
    cases hg : truthyContent p a <;>
      simp [textDrain, ha, ih', List.filterMap_cons, hg]

theorem streamLoop_tool_segments {ι E α : Type} (p : StreamParser ι)
    (schemas : List (FunctionSchema E α)) (fuel : Nat) (t : ι) (items trace : List ι)
    (acc : List (Segment α))
    (hcont : p.is_content t = false) (htool : p.is_tool_call t = true)
    (h : (streamLoop p schemas (fuel + 1) t items trace acc).error = none) :
    (streamLoop p schemas (fuel + 1) t items trace acc).segments =
      acc.reverse ++
        (specOutputs schemas ((t :: items).flatMap p.iter_tool_calls)).map
          Segment.structured := by
  simp only [streamLoop, hcont, htool, Bool.false_eq_true, if_false, if_true] at h ⊢
  rcases hpc : pullChunk p (p.iter_tool_calls t) items trace with ⟨copt, buf, items', trace'⟩
  have hfl := pullChunk_flatten p items (p.iter_tool_calls t) trace
  rw [hpc] at hfl
  cases copt with
  | some c =>
    simp only [hpc] at h ⊢
    rw [toolLoop_segments p schemas _ _ _ _ _ _ h]
    rw [List.flatMap_cons, hfl]
  | none => simp [hpc] at h

/-- One unfolding of the outer loop at a content event: open a text
segment, drain it, and continue from the boundary (if any). -/
theorem streamLoop_content_step {ι E α : Type} (p : StreamParser ι)
    (schemas : List (FunctionSchema E α)) (fuel : Nat) (cur : ι) (items trace : List ι)
    (acc : List (Segment α))
    (hcontent : p.is_content cur = true) (hnot : p.is_tool_call cur = false) :
    streamLoop p schemas (fuel + 1) cur items trace acc =
      match textDrain p items trace with
      | (frags, some b, rest, trace') =>
        streamLoop p schemas fuel b rest trace'
          (.text ((truthyContent p cur).toList ++ frags) :: acc)
      | (frags, none, _, trace') =>
        ⟨(Segment.text ((truthyContent p cur).toList ++ frags) :: acc).reverse, trace', none⟩ := by
  simp only [streamLoop, hcontent, hnot, Bool.false_eq_true, if_true, if_false]

theorem c1_order_preservation_amended {ι E α : Type} (p : StreamParser ι)
    (schemas : List (FunctionSchema E α)) (cs ts : List ι)
    (hc : ∀ e ∈ cs, p.is_content e = true ∧ p.is_tool_call e = false)
    (ht : ∀ e ∈ ts, p.is_tool_call e = true ∧ p.is_content e = false)
    (hok : (runEngine p schemas (cs ++ ts)).error = none) :
    (runEngine p schemas (cs ++ ts)).segments =
      (if cs.isEmpty then [] else
        [Segment.text (cs.filterMap (truthyContent p)
          ++ (ts.head?.bind (truthyContent p)).toList)])
      ++ (specOutputs schemas (ts.flatMap p.iter_tool_calls)).map Segment.structured := by
  cases cs with
  | nil =>
    cases ts with
    | nil => simp [runEngine] at hok
    | cons t ts' =>
      have htt := ht t (by simp)
      simp only [List.nil_append, runEngine] at hok ⊢
      have hfuel : ts'.length + 2 = (ts'.length + 1) + 1 := rfl
      rw [hfuel] at hok ⊢
      rw [streamLoop_tool_segments p schemas _ _ _ _ _ htt.2 htt.1 hok]
      simp
  | cons c0 cs' =>
    have hc0 := hc c0 (by simp)
    have hnt : ∀ a ∈ cs', p.is_tool_call a = false := fun a ha => (hc a (by simp [ha])).2
    simp only [runEngine, List.cons_append] at hok ⊢
    have hfuel : (cs' ++ ts).length + 2 = ((cs' ++ ts).length + 1) + 1 := rfl
    rw [hfuel] at hok ⊢
    rw [streamLoop_content_step p schemas _ _ _ _ _ hc0.1 hc0.2] at hok ⊢
    cases ts with
    | nil =>
      rw [List.append_nil] at hok ⊢
      rw [textDrain_no_tool p cs' [c0] hnt] at hok ⊢
      cases hg : truthyContent p c0 <;>
        simp [List.filterMap_cons, hg, specOutputs, callGroups, callGroupsF]
    | cons t ts' =>
      have htt := ht t (by simp)
      rw [textDrain_to_boundary p cs' t ts' [c0] hnt htt.1] at hok ⊢
      simp only at hok ⊢
      rw [streamLoop_tool_segments p schemas _ _ _ _ _ htt.2 htt.1 hok]
      cases hg : truthyContent p c0 <;>
        simp [List.filterMap_cons, hg]

theorem atextDrain_eq {ι : Type} (p : StreamParser ι) :
    ∀ (l trace : List ι), atextDrain p l trace = textDrain p l trace := by
  intro l
  induction l with
  | nil => intro trace; rfl
  | cons it rest ih =>
    intro trace
    cases h : p.is_tool_call it <;> simp [atextDrain, textDrain, h, ih]

theorem adrainBuf_eq_sync (cur : String) :
    ∀ (buf : List FunctionCallChunk), adrainBuf cur buf = drainBuf cur buf := by
  intro buf
  induction buf with
  | nil => rfl
  | cons c rest ih =>
    cases h : isBoundaryChunk cur c with
    | true => simp [adrainBuf, drainBuf, h]
    | false =>
      cases ha : truthyArgs c <;> simp [adrainBuf, drainBuf, h, ha, ih]

theorem atoolCallDrain_eq {ι : Type} (p : StreamParser ι) (cur : String) :
    ∀ (items : List ι) (buf : List FunctionCallChunk) (trace : List ι),
    atoolCallDrain p cur buf items trace = toolCallDrain p cur buf items trace := by
  intro items
  induction items with
  | nil =>
    intro buf trace
    rw [atoolCallDrain.eq_def, toolCallDrain.eq_def]
    simp only []
    rw [adrainBuf_eq_sync]
  | cons it items' ih =>
    intro buf trace
    rw [atoolCallDrain.eq_def, toolCallDrain.eq_def]
    simp only []
    rw [adrainBuf_eq_sync]
    cases hdb : drainBuf cur buf with
    | inl x => rfl
    | inr f => simp [ih]

theorem apullChunk_eq {ι : Type} (p : StreamParser ι) :
    ∀ (items : List ι) (buf : List FunctionCallChunk) (trace : List ι),
    apullChunk p buf items trace = pullChunk p buf items trace := by
  intro items
  induction items with
  | nil => intro buf trace; cases buf <;> rfl
  | cons it items' ih =>
    intro buf trace
    cases buf with
    | nil => simp [apullChunk, pullChunk, ih]
    | cons c buf' => rfl

theorem aselect_ofSync {E α : Type} (schemas : List (FunctionSchema E α)) (n : String) :
    aselect_function_schema (schemas.map AsyncFunctionSchema.ofSync) n =
      (select_function_schema schemas n).map AsyncFunctionSchema.ofSync := by
  unfold aselect_function_schema select_function_schema
  exact List.find?_map _ _

theorem atoolLoop_eq {ι E α : Type} (p : StreamParser ι)
    (schemas : List (FunctionSchema E α)) :
    ∀ (fuel : Nat) (c : FunctionCallChunk) (buf : List FunctionCallChunk)
      (items trace : List ι) (acc : List (Segment α)),
    atoolLoop p (schemas.map AsyncFunctionSchema.ofSync) fuel c buf items trace acc =
      toolLoop p schemas fuel c buf items trace acc := by
  intro fuel
  induction fuel with
  | zero => intro c buf items trace acc; rfl
  | succ fuel ih =>
    intro c buf items trace acc
    simp only [atoolLoop, toolLoop, aselect_ofSync, atoolCallDrain_eq]
    cases hid : c.id with
    | none => simp
    | some i =>
      cases hname : c.name with
      | none => simp
      | some n =>
        cases hsel : select_function_schema schemas n with
        | none => simp [hsel]
        | some schema =>
          rcases hd : toolCallDrain p i (c :: buf) items trace with
            ⟨frags, b, buf', items', trace'⟩
          cases b with
          | some c' =>
            cases hp : schema.parse_args frags with
            | error e => simp [hsel, hd, AsyncFunctionSchema.ofSync, hp]
            | ok out => simp [hsel, hd, AsyncFunctionSchema.ofSync, hp, ih]
          | none =>
            cases hp : schema.parse_args frags with
            | error e => simp [hsel, hd, AsyncFunctionSchema.ofSync, hp]
            | ok out => simp [hsel, hd, AsyncFunctionSchema.ofSync, hp]

theorem astreamLoop_eq {ι E α : Type} (p : StreamParser ι)
    (schemas : List (FunctionSchema E α)) :
    ∀ (fuel : Nat) (cur : ι) (items trace : List ι) (acc : List (Segment α)),
    astreamLoop p (schemas.map AsyncFunctionSchema.ofSync) fuel cur items trace acc =
      streamLoop p schemas fuel cur items trace acc := by
  intro fuel
  induction fuel with
  | zero => intro cur items trace acc; rfl
  | succ fuel ih =>
    intro cur items trace acc
    simp only [astreamLoop, streamLoop, atextDrain_eq, apullChunk_eq]
    cases hc : p.is_content cur with
    | true =>
      cases ht : p.is_tool_call cur with
      | true => simp [ih]
      | false =>
        rcases htd : textDrain p items trace with ⟨frags, b, rest, trace'⟩
        cases b <;> simp [ih]
    | false =>
      cases ht : p.is_tool_call cur with
      | true =>
        rcases hpc : pullChunk p (p.iter_tool_calls cur) items trace with
          ⟨copt, buf, items', trace'⟩
        cases copt <;> simp [atoolLoop_eq]
      | false => cases items <;> simp [ih]

theorem sRunGo_snextGo {ι : Type} (p : StreamParser ι) :
    ∀ l, sRunGo p l =
      match snextGo p l with
      | .yld c pend rest =>
        (c :: (sRunState p (some pend, rest)).1, (sRunState p (some pend, rest)).2)
      | .fin b rest => ([], b, rest) := by
  intro l
  induction l with
  | nil => rfl
  | cons it rest ih =>
    cases hg : truthyContent p it with
    | some c =>
      cases htl : p.is_tool_call it <;> simp [sRunGo, snextGo, sRunState, hg, htl]
    | none =>
      cases htl : p.is_tool_call it <;> simp [sRunGo, snextGo, sRunState, hg, htl, ih]

theorem sRunState_snext {ι : Type} (p : StreamParser ι) :
    ∀ st, sRunState p st =
      match snext p st with
      | .yld c pend rest =>
        (c :: (sRunState p (some pend, rest)).1, (sRunState p (some pend, rest)).2)
      | .fin b rest => ([], b, rest) := by
  intro st
  rcases st with ⟨pend, l⟩
  cases pend with
  | none => simpa [snext, sRunState] using sRunGo_snextGo p l
  | some it =>
    cases htl : p.is_tool_call it <;>
      simp [snext, sRunState, htl, sRunGo_snextGo p l]

theorem tRunGo_tnext (cur : String) :
    ∀ l, tRunGo cur l =
      match tnext cur l with
      | .yld a _ rest => (a :: (tRunGo cur rest).1, (tRunGo cur rest).2)
      | .fin b rest => ([], b, rest) := by
  intro l
  induction l with
  | nil => rfl
  | cons c rest ih =>
    cases hb : isBoundaryChunk cur c with
    | true => simp [tRunGo, tnext, hb]
    | false =>
      cases ha : truthyArgs c <;> simp [tRunGo, tnext, hb, ha, ih]

/-- C1 (counterexample): a content-classified event that arrives after
tool-call events does not yield a new Text Segment: on the source
`[tool_call(id=1, name=f, args=1), content(x)]` the engine emits exactly one
Structured Segment and no Text Segment (the content event is consumed by the
tool phase's flattening stream, contributing no fragments), contradicting
the claim's text/tool-call alternation mirroring. -/
theorem c1_counterexample_content_after_tool_swallowed :
    runEngine evParser [echoSchema "f"]
        [Ev.tool (some "1") (some "f") (some "1"), Ev.content "x"] =
      ⟨[Segment.structured ("f", "1")],
       [Ev.tool (some "1") (some "f") (some "1"), Ev.content "x"], none⟩ := by
  rfl

/-- C1 (amended): order preservation holds for every interleaving in which
all content-classified events precede all tool-call-classified events: when
the engine runs without error on such a source, it emits the Text Segment
of the content run (its fragments being the truthy contents in source
order, including the boundary event's content) followed by one Structured
Segment per call, in the order the calls' boundary fragments occur in the
flattened fragment stream.  A content event after tool-call events yields no
Segment (see the counterexample). -/
theorem c1_order_preservation {ι E α : Type} (p : StreamParser ι)
    (schemas : List (FunctionSchema E α)) (cs ts : List ι)
    (hc : ∀ e ∈ cs, p.is_content e = true ∧ p.is_tool_call e = false)
    (ht : ∀ e ∈ ts, p.is_tool_call e = true ∧ p.is_content e = false)
    (hok : (runEngine p schemas (cs ++ ts)).error = none) :
    (runEngine p schemas (cs ++ ts)).segments =
      (if cs.isEmpty then [] else
        [Segment.text (cs.filterMap (truthyContent p)
          ++ (ts.head?.bind (truthyContent p)).toList)])
      ++ (specOutputs schemas (ts.flatMap p.iter_tool_calls)).map Segment.structured :=
  c1_order_preservation_amended p schemas cs ts hc ht hok

/-- C1 witness: the amended order-preservation theorem applied to the
concrete source `[content(a), tool_call(id=1, name=f, args=1)]`. -/
theorem c1_order_preservation_witness :
    (runEngine evParser [echoSchema "f"]
        ([Ev.content "a"] ++ [Ev.tool (some "1") (some "f") (some "1")])).segments =
      (if ([Ev.content "a"] : List Ev).isEmpty then [] else
        [Segment.text (([Ev.content "a"] : List Ev).filterMap (truthyContent evParser)
          ++ ((([Ev.tool (some "1") (some "f") (some "1")] : List Ev).head?).bind
              (truthyContent evParser)).toList)])
      ++ (specOutputs [echoSchema "f"]
            (([Ev.tool (some "1") (some "f") (some "1")] : List Ev).flatMap
              evParser.iter_tool_calls)).map Segment.structured :=
  c1_order_preservation evParser [echoSchema "f"]
    [Ev.content "a"] [Ev.tool (some "1") (some "f") (some "1")]
    (by decide) (by decide) (by rfl)

/-- C2: whenever the engine is driven to completion without error, the
update trace is exactly the source: `state.update` is called once per raw
event, in source order (the trace is built by appending each event at the
moment it is pulled, before it is routed into any segment). -/
theorem c2_exactly_once_update {ι E α : Type} (p : StreamParser ι)
    (schemas : List (FunctionSchema E α)) (source : List ι)
    (h : (runEngine p schemas source).error = none) :
    (runEngine p schemas source).trace = source := by
  cases source with
  | nil => simp [runEngine] at h
  | cons cur rest =>
    simp only [runEngine] at h ⊢
    rw [streamLoop_trace p schemas _ _ _ _ _ h]
    rfl

/-- C2 witness: exactly-once update on a concrete three-event source. -/
theorem c2_exactly_once_update_witness :
    (runEngine evParser [echoSchema "f"]
        [Ev.content "a", Ev.admin, Ev.content "b"]).error = none ∧
    (runEngine evParser [echoSchema "f"]
        [Ev.content "a", Ev.admin, Ev.content "b"]).trace =
      [Ev.content "a", Ev.admin, Ev.content "b"] :=
  ⟨rfl, c2_exactly_once_update evParser [echoSchema "f"]
    [Ev.content "a", Ev.admin, Ev.content "b"] rfl⟩

/-- C3: text-segment abandonment safety.  However many fragments the
consumer takes before abandoning the text segment (`sRunTake`), the engine's
own drain of the suspended generator (`resumeText`, modelling
`consume(streamed_str)` before the next segment is produced) recovers
exactly the full drain: the same total fragment sequence, the same boundary
event captured in the lookahead slot, and the same unconsumed remainder —
no event is skipped. -/
theorem c3_text_abandonment_safety {ι : Type} (p : StreamParser ι) :
    ∀ (k : Nat) (st : Option ι × List ι),
    resumeText p (sRunTake p k st) = sRunState p st := by
  intro k
  induction k with
  | zero =>
    intro st
    rcases st with ⟨pend, l⟩
    simp [sRunTake, resumeText]
  | succ k ih =>
    intro st
    rw [sRunState_snext p st]
    cases hs : snext p st with
    | yld c pend rest =>
      have hrec := ih (some pend, rest)
      cases hk : sRunTake p k (some pend, rest) with
      | suspended taken pd rs =>
        rw [hk] at hrec
        simp only [resumeText] at hrec
        simp only [sRunTake, hs, hk, resumeText, ← hrec]
        simp
      | finished taken b rs =>
        rw [hk] at hrec
        simp only [resumeText] at hrec
        simp only [sRunTake, hs, hk, resumeText, ← hrec]
    | fin b rest => simp [sRunTake, hs, resumeText]

/-- C4: structured-segment abandonment safety.  First, at the fragment
level: however many args chunks the schema's parse consumed before stopping
(`tRunTake`), the engine's drain of the residual stream through the yielded
value (`resumeTool`, modelling `consume(output)`) recovers exactly the full
drain — same args, same next-call boundary fragment, same remainder.
Second, concretely: on a source of two tool calls with distinct ids the
engine parses both calls, each from its own argument text. -/
theorem c4_structured_abandonment_safety :
    (∀ (cur : String) (k : Nat) (l : List FunctionCallChunk),
      resumeTool cur (tRunTake cur k l) = tRunGo cur l) ∧
    runEngine evParser [echoSchema "f", echoSchema "g"]
        [Ev.tool (some "1") (some "f") (some "1"),
         Ev.tool (some "2") (some "g") (some "2")] =
      ⟨[Segment.structured ("f", "1"), Segment.structured ("g", "2")],
       [Ev.tool (some "1") (some "f") (some "1"),
        Ev.tool (some "2") (some "g") (some "2")], none⟩ := by
  constructor
  · intro cur k
    induction k with
    | zero => intro l; simp [tRunTake, resumeTool]
    | succ k ih =>
      intro l
      rw [tRunGo_tnext cur l]
      cases hs : tnext cur l with
      | yld a pend rest =>
        have hrec := ih rest
        cases hk : tRunTake cur k rest with
        | suspended taken pd rs =>
          rw [hk] at hrec
          simp only [resumeTool] at hrec
          simp only [tRunTake, hs, hk, resumeTool, ← hrec]
          simp
        | finished taken b rs =>
          rw [hk] at hrec
          simp only [resumeTool] at hrec
          simp only [tRunTake, hs, hk, resumeTool, ← hrec]
      | fin b rest => simp [tRunTake, hs, resumeTool]
  · rfl

/-- C5: unknown tool.  Whenever the tool phase reaches a call whose boundary
fragment carries an id and a name for which the first-match schema lookup
returns none, it aborts with `UnknownToolError` carrying exactly the current
message snapshot (the update trace so far), that call's id, and the
attempted name; the segments already yielded are final — the engine produces
nothing further. -/
theorem c5_unknown_tool_error {ι E α : Type} (p : StreamParser ι)
    (schemas : List (FunctionSchema E α)) (fuel : Nat) (c : FunctionCallChunk)
    (buf : List FunctionCallChunk) (items trace : List ι) (acc : List (Segment α))
    (i n : String) (hid : c.id = some i) (hname : c.name = some n)
    (hsel : select_function_schema schemas n = none) :
    toolLoop p schemas (fuel + 1) c buf items trace acc =
      ⟨acc.reverse, trace, some (.unknownTool trace i n)⟩ := by
  simp [toolLoop, hid, hname, hsel]

/-- C5 witness: the unknown-tool abort evaluated on a concrete call naming a
tool absent from the registry. -/
theorem c5_unknown_tool_error_witness :
    toolLoop evParser [echoSchema "f"] 1
        ⟨some "1", some "g", some "1"⟩ [] ([Ev.tool (some "1") (some "g") (some "1")] : List Ev)
        [Ev.tool (some "1") (some "g") (some "1")] [] =
      ⟨[], [Ev.tool (some "1") (some "g") (some "1")],
       some (.unknownTool [Ev.tool (some "1") (some "g") (some "1")] "1" "g")⟩ :=
  c5_unknown_tool_error evParser [echoSchema "f"] 0
    ⟨some "1", some "g", some "1"⟩ [] [Ev.tool (some "1") (some "g") (some "1")]
    [Ev.tool (some "1") (some "g") (some "1")] [] "1" "g" rfl rfl rfl

/-- C6: schema parse failure.  Whenever the call's schema is found but its
parse of the call's argument fragments signals a validation error, the tool
phase aborts with `ToolSchemaParseError` carrying exactly the message
snapshot current at the raise (the update trace after the call's fragments
were consumed), that call's id, and the underlying validation error; the
segments already yielded are final. -/
theorem c6_schema_parse_error {ι E α : Type} (p : StreamParser ι)
    (schemas : List (FunctionSchema E α)) (fuel : Nat) (c : FunctionCallChunk)
    (buf : List FunctionCallChunk) (items trace : List ι) (acc : List (Segment α))
    (i n : String) (schema : FunctionSchema E α) (e : E)
    (frags : List String) (b : Option FunctionCallChunk)
    (buf' : List FunctionCallChunk) (items' trace' : List ι)
    (hid : c.id = some i) (hname : c.name = some n)
    (hsel : select_function_schema schemas n = some schema)
    (hdrain : toolCallDrain p i (c :: buf) items trace = (frags, b, buf', items', trace'))
    (hparse : schema.parse_args frags = .error e) :
    toolLoop p schemas (fuel + 1) c buf items trace acc =
      ⟨acc.reverse, trace', some (.toolSchemaParse trace' i e)⟩ := by
  cases b <;> simp [toolLoop, hid, hname, hsel, hdrain, hparse]

/-- C6 witness: the parse-failure abort evaluated on the concrete argument
text `x` against a schema expecting a number. -/
theorem c6_schema_parse_error_witness :
    toolLoop evParser [numSchema "h"] 1
        ⟨some "1", some "h", some "x"⟩ [] ([] : List Ev)
        [Ev.tool (some "1") (some "h") (some "x")] [] =
      ⟨[], [Ev.tool (some "1") (some "h") (some "x")],
       some (.toolSchemaParse [Ev.tool (some "1") (some "h") (some "x")] "1"
         "validation failed")⟩ :=
  c6_schema_parse_error evParser [numSchema "h"] 0
    ⟨some "1", some "h", some "x"⟩ [] [] [Ev.tool (some "1") (some "h") (some "x")] []
    "1" "h" (numSchema "h") "validation failed" ["x"] none [] []
    [Ev.tool (some "1") (some "h") (some "x")] rfl rfl rfl rfl (by rfl)

/-- C7 (counterexample): a fragment bearing the non-null id `""` different
from the active id `"1"` does not end the current call's fragment stream:
its args chunk is routed to the active call, because the code tests Python
truthiness of the id (`item.id and ...`), under which the empty string is
falsy. -/
theorem c7_counterexample_empty_id_routed :
    tRunGo "1" [⟨some "", none, some "x"⟩] = (["x"], none, []) ∧
    (some "" : Option String) ≠ none ∧ (some "" : Option String) ≠ some "1" := by
  refine ⟨rfl, by simp, by simp⟩

/-- C7 (amended): a fragment ends the current call's fragment stream and
becomes the lookahead for the next Structured Segment exactly when it bears
a non-null, non-empty id different from the active id; all other consecutive
fragments (null id, empty id, or the active id) are routed to the active
call's argument stream, in source order. -/
theorem c7_boundary_rule {cur : String} :
    (∀ c : FunctionCallChunk,
      isBoundaryChunk cur c = true ↔ ∃ s, c.id = some s ∧ s ≠ "" ∧ s ≠ cur) ∧
    ∀ l : List FunctionCallChunk,
      tRunGo cur l =
        ((l.takeWhile fun d => !isBoundaryChunk cur d).filterMap truthyArgs,
         (l.dropWhile fun d => !isBoundaryChunk cur d).head?,
         (l.dropWhile fun d => !isBoundaryChunk cur d).tail) := by
  constructor
  · intro c
    cases hid : c.id with
    | none => simp [isBoundaryChunk, hid]
    | some s => simp [isBoundaryChunk, hid]
  · exact tRunGo_closed cur

/-- C8: argument-stream invariant.  The args chunks delivered to a call's
schema parser are the truthy args of that call's fragments in source order
(a `filterMap` of the pre-boundary run), and every delivered chunk is a
non-empty string — an absent or empty args field contributes no chunk. -/
theorem c8_args_stream_invariant (cur : String) (l : List FunctionCallChunk) :
    (tRunGo cur l).1 =
      (l.takeWhile fun d => !isBoundaryChunk cur d).filterMap truthyArgs ∧
    ∀ s ∈ (tRunGo cur l).1, s ≠ "" := by
  constructor
  · rw [tRunGo_closed]
  · intro s hs
    rw [tRunGo_closed] at hs
    simp only at hs
    obtain ⟨c, _, hc⟩ := List.mem_filterMap.mp hs
    cases ha : c.args with
    | none => simp [truthyArgs, truthyStr, ha] at hc
    | some a =>
      simp only [truthyArgs, truthyStr, ha] at hc
      by_cases he : a = ""
      · rw [if_pos he] at hc; exact absurd hc (by simp)
      · rw [if_neg he] at hc
        injection hc with h2
        subst h2
        exact he

/-- C8 witness: the invariant applied to a concrete fragment list containing
an empty and an absent args chunk. -/
theorem c8_args_stream_invariant_witness :
    ("x" ∈ (tRunGo "1" [⟨some "1", some "f", some "x"⟩, ⟨none, none, some ""⟩,
        ⟨none, none, none⟩, ⟨some "1", none, some "y"⟩]).1) ∧ "x" ≠ "" :=
  ⟨by decide,
   (c8_args_stream_invariant "1" [⟨some "1", some "f", some "x"⟩, ⟨none, none, some ""⟩,
      ⟨none, none, none⟩, ⟨some "1", none, some "y"⟩]).2 "x" (by decide)⟩

/-- C9: sync/async equivalence.  For every source and every schema list, the
blocking engine and the cooperative engine driven with the matching async
schemas emit the same segments, build the same update trace, and raise the
same error at the same point — the whole run results coincide. -/
theorem c9_sync_async_equivalence {ι E α : Type} (p : StreamParser ι)
    (schemas : List (FunctionSchema E α)) (source : List ι) :
    runAsyncEngine p (schemas.map AsyncFunctionSchema.ofSync) source =
      runEngine p schemas source := by
  cases source with
  | nil => rfl
  | cons cur rest =>
    simp only [runAsyncEngine, runEngine]
    exact astreamLoop_eq p schemas _ _ _ _ _

/-- C10: boundary-event content.  Inside a text segment, the first
tool-call-classified event ends the segment; if its extracted content is
truthy (non-null, non-empty) that content is yielded as the final fragment
before the event itself is stored as the lookahead, and every event whose
extracted content is null or empty contributes no fragment (the fragment
list is a `filterMap` of truthy contents). -/
theorem c10_boundary_event_content {ι : Type} (p : StreamParser ι)
    (pre : List ι) (t : ι) (rest : List ι)
    (hpre : ∀ e ∈ pre, p.is_tool_call e = false) (ht : p.is_tool_call t = true) :
    sRunGo p (pre ++ t :: rest) =
      (pre.filterMap (truthyContent p) ++ (truthyContent p t).toList, some t, rest) := by
  induction pre with
  | nil => cases hg : truthyContent p t <;> simp [sRunGo, ht, hg]
  | cons a pre' ih =>
    have ha : p.is_tool_call a = false := hpre a (by simp)
    have ih' := ih fun x hx => hpre x (by simp [hx])
    cases hg : truthyContent p a <;>
      simp [sRunGo, ha, hg, ih', List.filterMap_cons]

/-- C10 witness: a boundary event carrying both a text delta and a tool-call
fragment, preceded by a content event and an empty-content event. -/
theorem c10_boundary_event_content_witness :
    sRunGo evParser ([Ev.content "a", Ev.content ""] ++
        Ev.mixed "x" (some "1") (some "f") (some "1") :: [Ev.admin]) =
      (["a", "x"], some (Ev.mixed "x" (some "1") (some "f") (some "1")), [Ev.admin]) := by
  have h := c10_boundary_event_content evParser [Ev.content "a", Ev.content ""]
    (Ev.mixed "x" (some "1") (some "f") (some "1")) [Ev.admin]
    (by decide) (by decide)
  rw [h]
  rfl
